import Mathlib

/-!
Verification of the `anima` desktop supervisor's persistence and registry
layer against its specification.

The development shallowly embeds the Electron main-process code:

* `src/electron/main/store.ts` — `loadConfig`, `saveConfig`, `getProjects`,
  `addProject`, `removeProject`, the on-disk `config.json` handling;
* `src/electron/main/tray.ts` — `getAggregateStatus`;
* the `Project`/`AppConfig` data model from `src/electron/main/types.ts`.

`JSON.stringify(·, null, 2)` and `JSON.parse` are platform primitives; they
are modelled by an executable pretty-printer (`renderPretty`) and parser
(`jsonParse`) over a `JVal` tree, with the codec round-trip proved below.
The iteration engine exists in the repository only as design documents, so
its loop is modelled from the spec (see `engineStep`).
-/

namespace Anima

/-! ## JSON values

A JSON number is kept exactly as mantissa × 10 ^ exp10, so parsing never
rounds.  The application only ever serializes natural numbers (`round`),
which take the form `⟨n, 0⟩`. -/

structure JNum where
  mant : Int
  exp10 : Int
deriving DecidableEq, Repr

inductive JVal where
  | jnull
  | jbool (b : Bool)
  | jnum (n : JNum)
  | jstr (s : String)
  | jarr (items : List JVal)
  | jobj (entries : List (String × JVal))

/-- The opening brace character, `\x7b`. -/
def curlyL : Char := Char.ofNat 123

/-- The closing brace character, `\x7d`. -/
def curlyR : Char := Char.ofNat 125

/-! ## Pretty printer

`renderPretty` reproduces `JSON.stringify(value, null, 2)`: two-space
indentation, each array item / object entry on its own line, `": "` after
keys, strings escaped exactly as V8 escapes them (`"`, `\`, the five
short escapes, `\u00XX` for other control characters; everything from
`0x20` up, non-ASCII included, is emitted literally). -/

/-- Lowercase hexadecimal digit character for `k < 16`. -/
def hexDig (k : Nat) : Char :=
  if k < 10 then Char.ofNat (48 + k) else Char.ofNat (87 + k)

/-- JSON string escaping of one character, following `JSON.stringify`. -/
def escChar (c : Char) : List Char :=
  if c = '"' then ['\\', '"']
  else if c = '\\' then ['\\', '\\']
  else if 32 ≤ c.toNat then [c]
  else if c = Char.ofNat 8 then ['\\', 'b']
  else if c = '\t' then ['\\', 't']
  else if c = '\n' then ['\\', 'n']
  else if c = Char.ofNat 12 then ['\\', 'f']
  else if c = '\r' then ['\\', 'r']
  else ['\\', 'u', '0', '0', hexDig (c.toNat / 16), hexDig (c.toNat % 16)]

/-- A rendered JSON string: quote, escaped body, quote. -/
def strChars (s : String) : List Char :=
  '"' :: (s.data.flatMap escChar ++ ['"'])

/-- Decimal digit character of `k < 10`. -/
def dchar (k : Nat) : Char := Char.ofNat (48 + k)

/-- Decimal digits of `n`, most significant first, pushed onto `acc`. -/
def digitsAux (n : Nat) (acc : List Char) : List Char :=
  if n < 10 then dchar n :: acc
  else digitsAux (n / 10) (dchar (n % 10) :: acc)
termination_by n
decreasing_by exact Nat.div_lt_self (by omega) (by omega)

/-- Decimal digits of `n`, most significant first. -/
def digitsOf (n : Nat) : List Char := digitsAux n []

/-- Characters of an integer: sign, then decimal digits. -/
def intChars (i : Int) : List Char :=
  if i < 0 then '-' :: digitsOf i.natAbs else digitsOf i.natAbs

/-- Characters of a JSON number; a zero exponent is left implicit, which is
the only form the application ever writes. -/
def numChars (n : JNum) : List Char :=
  intChars n.mant ++ (if n.exp10 = 0 then [] else 'e' :: intChars n.exp10)

/-- Indentation for nesting depth `d`: two spaces per level. -/
def pad : Nat → List Char
  | 0 => []
  | d + 1 => ' ' :: ' ' :: pad d

mutual

/-- Characters of a value at nesting depth `d` (the depth only affects the
indentation inside composite values). -/
def jvChars : Nat → JVal → List Char
  | _, .jnull => ['n', 'u', 'l', 'l']
  | _, .jbool true => ['t', 'r', 'u', 'e']
  | _, .jbool false => ['f', 'a', 'l', 's', 'e']
  | _, .jnum n => numChars n
  | _, .jstr s => strChars s
  | _, .jarr [] => ['[', ']']
  | d, .jarr (x :: xs) =>
      '[' :: '\n' :: (itemsChars (d + 1) x xs ++ '\n' :: (pad d ++ [']']))
  | _, .jobj [] => [curlyL, curlyR]
  | d, .jobj (e :: es) =>
      curlyL :: '\n' :: (entriesChars (d + 1) e es ++ '\n' :: (pad d ++ [curlyR]))
termination_by _ v => sizeOf v

/-- Characters of a nonempty run of array items at depth `d`, each on its own
indented line, separated by `",\n"`. -/
def itemsChars : Nat → JVal → List JVal → List Char
  | d, x, [] => pad d ++ jvChars d x
  | d, x, y :: ys => pad d ++ jvChars d x ++ ',' :: '\n' :: itemsChars d y ys
termination_by _ x xs => sizeOf x + sizeOf xs

/-- Characters of a nonempty run of object entries at depth `d`:
`"key": value`, one entry per indented line. -/
def entriesChars : Nat → (String × JVal) → List (String × JVal) → List Char
  | d, (k, v), [] => pad d ++ (strChars k ++ ':' :: ' ' :: jvChars d v)
  | d, (k, v), e :: es =>
      pad d ++ (strChars k ++ ':' :: ' ' :: jvChars d v)
        ++ ',' :: '\n' :: entriesChars d e es
termination_by _ e es => sizeOf e + sizeOf es

end

/-- `JSON.stringify(v, null, 2)`. -/
def renderPretty (v : JVal) : String := String.mk (jvChars 0 v)

/-! ## Parser

`jsonParse` models `JSON.parse`: whitespace-insensitive, full string escape
handling, exact (unrounded) numbers, `none` on any syntax error.  It
recurses on a fuel bounded by the input length at the top entry point. -/

/-- JSON whitespace. -/
def wsp (c : Char) : Bool := c = ' ' || c = '\n' || c = '\t' || c = '\r'

/-- Drop leading JSON whitespace. -/
def wsSkip : List Char → List Char
  | [] => []
  | c :: r => if wsp c then wsSkip r else c :: r

/-- ASCII decimal digit test. -/
def isDig (c : Char) : Bool := 48 ≤ c.toNat && c.toNat ≤ 57

/-- Split off the longest leading digit run. -/
def grabDigits : List Char → List Char × List Char
  | [] => ([], [])
  | c :: r =>
      if isDig c then
        let p := grabDigits r
        (c :: p.1, p.2)
      else ([], c :: r)

/-- Value of a digit run, most significant first. -/
def digitsVal (ds : List Char) : Nat :=
  ds.foldl (fun a c => 10 * a + (c.toNat - 48)) 0

/-- Numeric value of a hexadecimal digit character. -/
def hexv (c : Char) : Option Nat :=
  if 48 ≤ c.toNat ∧ c.toNat ≤ 57 then some (c.toNat - 48)
  else if 97 ≤ c.toNat ∧ c.toNat ≤ 102 then some (c.toNat - 87)
  else if 65 ≤ c.toNat ∧ c.toNat ≤ 70 then some (c.toNat - 55)
  else none

/-- Short escapes a JSON string may contain. -/
def unesc (c : Char) : Option Char :=
  if c = '"' then some '"'
  else if c = '\\' then some '\\'
  else if c = '/' then some '/'
  else if c = 'b' then some (Char.ofNat 8)
  else if c = 'f' then some (Char.ofNat 12)
  else if c = 'n' then some '\n'
  else if c = 'r' then some '\r'
  else if c = 't' then some '\t'
  else none

/-- Body of a JSON string after the opening quote; `acc` holds the decoded
characters in reverse. -/
def readStrBody : List Char → List Char → Option (String × List Char)
  | acc, '"' :: r => some (String.mk acc.reverse, r)
  | acc, '\\' :: 'u' :: a :: b :: c :: d :: r =>
      match hexv a, hexv b, hexv c, hexv d with
      | some va, some vb, some vc, some vd =>
          readStrBody (Char.ofNat (((va * 16 + vb) * 16 + vc) * 16 + vd) :: acc) r
      | _, _, _, _ => none
  | acc, '\\' :: e :: r =>
      match unesc e with
      | some ch => readStrBody (ch :: acc) r
      | none => none
  | acc, c :: r => if c.toNat < 32 then none else readStrBody (c :: acc) r
  | _, [] => none

/-- Exponent tail after `e`/`E`: optional sign, then at least one digit. -/
def readExpTail (t : List Char) : Option (Bool × Nat × List Char) :=
  let eneg : Bool := t.head? = some '-'
  let t1 := if t.head? = some '-' ∨ t.head? = some '+' then t.tail else t
  let q := grabDigits t1
  if q.1 = [] then none else some (eneg, digitsVal q.1, q.2)

/-- Fractional part: nothing, or a dot followed by at least one digit. -/
def readFrac (cs : List Char) : Option (List Char × List Char) :=
  if cs.head? = some '.' then
    let q := grabDigits cs.tail
    if q.1 = [] then none else some (q.1, q.2)
  else some ([], cs)

/-- Exponent part: nothing, or `e`/`E` then a signed digit run. -/
def readExp (cs : List Char) : Option (Bool × Nat × List Char) :=
  if cs.head? = some 'e' ∨ cs.head? = some 'E' then readExpTail cs.tail
  else some (false, 0, cs)

/-- A JSON number: optional minus, integer digits without a spurious leading
zero, optional fraction, optional exponent. -/
def readNum (cs0 : List Char) : Option (JNum × List Char) :=
  let neg : Bool := cs0.head? = some '-'
  let di := grabDigits (if cs0.head? = some '-' then cs0.tail else cs0)
  if di.1 = [] then none
  else if di.1.head? = some '0' ∧ di.1.length ≠ 1 then none
  else
    match readFrac di.2 with
    | none => none
    | some (fds, cs3) =>
        match readExp cs3 with
        | none => none
        | some (eneg, ev, cs4) =>
            let mag : Nat := digitsVal (di.1 ++ fds)
            let m : Int := if neg then -(mag : Int) else (mag : Int)
            let e : Int := (if eneg then -(ev : Int) else (ev : Int)) - fds.length
            some (⟨m, e⟩, cs4)

mutual

/-- One JSON value, whitespace-prefixed; structural on `fuel`. -/
def readVal : Nat → List Char → Option (JVal × List Char)
  | 0, _ => none
  | fuel + 1, cs =>
      match wsSkip cs with
      | 'n' :: 'u' :: 'l' :: 'l' :: r => some (.jnull, r)
      | 't' :: 'r' :: 'u' :: 'e' :: r => some (.jbool true, r)
      | 'f' :: 'a' :: 'l' :: 's' :: 'e' :: r => some (.jbool false, r)
      | '"' :: r => (readStrBody [] r).map (fun p => (.jstr p.1, p.2))
      | '[' :: r =>
          (match wsSkip r with
           | ']' :: r2 => some (.jarr [], r2)
           | r1 => (readItems fuel r1).map (fun p => (.jarr p.1, p.2)))
      | c :: r =>
          if c = curlyL then
            (match wsSkip r with
             | [] => none
             | c2 :: r2 =>
                 if c2 = curlyR then some (.jobj [], r2)
                 else (readEntries fuel (c2 :: r2)).map (fun p => (.jobj p.1, p.2)))
          else if c = '-' || isDig c then
            (readNum (c :: r)).map (fun p => (.jnum p.1, p.2))
          else none
      | [] => none

/-- One or more comma-separated array items, then `]`. -/
def readItems : Nat → List Char → Option (List JVal × List Char)
  | 0, _ => none
  | fuel + 1, cs =>
      match readVal fuel cs with
      | none => none
      | some (v, r) =>
          match wsSkip r with
          | ',' :: r2 => (readItems fuel r2).map (fun p => (v :: p.1, p.2))
          | ']' :: r2 => some ([v], r2)
          | _ => none

/-- One or more comma-separated `"key": value` entries, then the closing
brace. -/
def readEntries : Nat → List Char → Option (List (String × JVal) × List Char)
  | 0, _ => none
  | fuel + 1, cs =>
      match wsSkip cs with
      | '"' :: r =>
          match readStrBody [] r with
          | none => none
          | some (k, r1) =>
              match wsSkip r1 with
              | ':' :: r2 =>
                  match readVal fuel r2 with
                  | none => none
                  | some (v, r3) =>
                      match wsSkip r3 with
                      | ',' :: r4 =>
                          (readEntries fuel r4).map (fun p => ((k, v) :: p.1, p.2))
                      | c4 :: r4 => if c4 = curlyR then some ([(k, v)], r4) else none
                      | [] => none
              | _ => none
      | _ => none

end

/-- `JSON.parse`: a whole document, allowing surrounding whitespace. -/
def jsonParse (s : String) : Option JVal :=
  match readVal (s.data.length + 1) s.data with
  | some (v, r) => if wsSkip r = [] then some v else none
  | none => none

/-- A remainder that cannot extend a number token: empty, or starting with a
character that extends neither a digit run, a fraction, nor an exponent. -/
def numStop : List Char → Bool
  | [] => true
  | c :: _ => !(isDig c || c = '.' || c = 'e' || c = 'E')

/-! ## Whitespace and digit lemmas -/

theorem wsSkip_app (pre x : List Char) (h : ∀ c ∈ pre, wsp c = true) :
    wsSkip (pre ++ x) = wsSkip x := by
  induction pre with
  | nil => rfl
  | cons c t ih =>
      have hc : wsp c = true := h c (by simp)
      simp only [List.cons_append, wsSkip, hc, if_pos]
      exact ih (fun d hd => h d (by simp [hd]))

theorem wsSkip_cons_not {c : Char} (t : List Char) (h : wsp c = false) :
    wsSkip (c :: t) = c :: t := by
  simp [wsSkip, h]

theorem wsSkip_idem (cs : List Char) : wsSkip (wsSkip cs) = wsSkip cs := by
  induction cs with
  | nil => rfl
  | cons c t ih =>
      by_cases h : wsp c = true
      · simp [wsSkip, h, ih]
      · simp only [Bool.not_eq_true] at h
        simp [wsSkip, h]

theorem pad_ws (d : Nat) : ∀ c ∈ pad d, wsp c = true := by
  induction d with
  | zero => intro c hc; simp [pad] at hc
  | succ k ih =>
      intro c hc
      simp only [pad, List.mem_cons] at hc
      rcases hc with h | h | h
      · subst h; rfl
      · subst h; rfl
      · exact ih c h

theorem pad_length (d : Nat) : (pad d).length = 2 * d := by
  induction d with
  | zero => rfl
  | succ k ih => simp [pad, ih]; omega

theorem dchar_toNat {k : Nat} (h : k < 10) : (dchar k).toNat = 48 + k := by
  interval_cases k <;> rfl

theorem dchar_isDig {k : Nat} (h : k < 10) : isDig (dchar k) = true := by
  interval_cases k <;> rfl

theorem digitsAux_app (n : Nat) : ∀ acc, digitsAux n acc = digitsOf n ++ acc := by
  induction n using Nat.strong_induction_on with
  | _ n ih =>
      intro acc
      rw [digitsOf]
      conv_lhs => rw [digitsAux]
      conv_rhs => rw [digitsAux]
      by_cases h : n < 10
      · simp [h]
      · rw [if_neg h, if_neg h, ih (n / 10) (Nat.div_lt_self (by omega) (by omega)),
            ih (n / 10) (Nat.div_lt_self (by omega) (by omega))]
        simp

theorem digitsOf_step (n : Nat) :
    digitsOf n = (if n < 10 then [] else digitsOf (n / 10)) ++ [dchar (n % 10)] := by
  rw [digitsOf, digitsAux]
  by_cases h : n < 10
  · simp [h, Nat.mod_eq_of_lt h]
  · rw [if_neg h, if_neg h, digitsAux_app]

theorem digitsOf_ne_nil (n : Nat) : digitsOf n ≠ [] := by
  rw [digitsOf_step]; simp

theorem digitsOf_all_dig (n : Nat) : ∀ c ∈ digitsOf n, isDig c = true := by
  induction n using Nat.strong_induction_on with
  | _ n ih =>
      rw [digitsOf_step]
      intro c hc
      rw [List.mem_append] at hc
      rcases hc with h | h
      · by_cases h10 : n < 10
        · simp [h10] at h
        · rw [if_neg h10] at h
          exact ih (n / 10) (Nat.div_lt_self (by omega) (by omega)) c h
      · rw [List.mem_singleton] at h
        subst h
        exact dchar_isDig (Nat.mod_lt _ (by omega))

theorem digitsVal_digitsOf (n : Nat) : digitsVal (digitsOf n) = n := by
  induction n using Nat.strong_induction_on with
  | _ n ih =>
      rw [digitsOf_step]
      by_cases h : n < 10
      · simp only [if_pos h, List.nil_append, digitsVal, List.foldl_cons, List.foldl_nil]
        rw [dchar_toNat (Nat.mod_lt _ (by omega))]
        omega
      · simp only [if_neg h, digitsVal, List.foldl_append, List.foldl_cons, List.foldl_nil]
        have hrec := ih (n / 10) (Nat.div_lt_self (by omega) (by omega))
        rw [digitsVal] at hrec
        rw [hrec, dchar_toNat (Nat.mod_lt _ (by omega))]
        omega

theorem dchar_zero_iff {k : Nat} (h : k < 10) : dchar k = '0' ↔ k = 0 := by
  interval_cases k <;> decide

theorem digitsOf_head_zero : ∀ n, (digitsOf n).head? = some '0' → n = 0 := by
  intro n
  induction n using Nat.strong_induction_on with
  | _ n ih =>
      intro h
      rw [digitsOf_step] at h
      by_cases h10 : n < 10
      · rw [if_pos h10] at h
        simp only [List.nil_append, List.head?_cons, Option.some.injEq] at h
        exact (dchar_zero_iff (by omega)).mp ((Nat.mod_eq_of_lt h10) ▸ h)
      · exfalso
        rw [if_neg h10] at h
        obtain ⟨c, t, hct⟩ : ∃ c t, digitsOf (n / 10) = c :: t := by
          cases hd : digitsOf (n / 10) with
          | nil => exact absurd hd (digitsOf_ne_nil _)
          | cons c t => exact ⟨c, t, rfl⟩
        rw [hct] at h
        simp only [List.cons_append, List.head?_cons] at h
        have : n / 10 = 0 :=
          ih (n / 10) (Nat.div_lt_self (by omega) (by omega)) (by rw [hct]; exact h)
        omega

theorem digitsOf_zero_len (n : Nat) (h : (digitsOf n).head? = some '0') :
    (digitsOf n).length = 1 := by
  have h0 := digitsOf_head_zero n h
  subst h0
  rw [digitsOf_step]
  rfl

theorem digitsOf_cons (n : Nat) :
    ∃ c t, digitsOf n = c :: t ∧ isDig c = true := by
  cases hd : digitsOf n with
  | nil => exact absurd hd (digitsOf_ne_nil _)
  | cons c t =>
      exact ⟨c, t, rfl, digitsOf_all_dig n c (hd ▸ List.mem_cons_self c t)⟩

theorem isDig_toNat {c : Char} (h : isDig c = true) :
    48 ≤ c.toNat ∧ c.toNat ≤ 57 := by
  simp only [isDig, Bool.and_eq_true, decide_eq_true_eq] at h
  exact h

theorem isDig_ne_of_toNat {c : Char} (h : isDig c = true) (x : Char)
    (hx : x.toNat < 48 ∨ 57 < x.toNat) : c ≠ x := by
  intro hEq
  subst hEq
  have := isDig_toNat h
  omega

/-! ## `grabDigits` lemmas -/

theorem grabDigits_stop {cs : List Char}
    (h : ∀ c, cs.head? = some c → isDig c = false) : grabDigits cs = ([], cs) := by
  cases cs with
  | nil => rfl
  | cons c t =>
      have hc := h c rfl
      simp [grabDigits, hc]

theorem grabDigits_app (ds : List Char) (hds : ∀ c ∈ ds, isDig c = true)
    {rest : List Char} (hrest : grabDigits rest = ([], rest)) :
    grabDigits (ds ++ rest) = (ds, rest) := by
  induction ds with
  | nil => simpa using hrest
  | cons c t ih =>
      have hc : isDig c = true := hds c (by simp)
      have ht := ih (fun x hx => hds x (by simp [hx]))
      simp [grabDigits, hc, ht]

theorem numStop_head {c : Char} {t : List Char} (h : numStop (c :: t) = true) :
    isDig c = false ∧ c ≠ '.' ∧ c ≠ 'e' ∧ c ≠ 'E' := by
  simp only [numStop, Bool.not_eq_true', Bool.or_eq_false_iff,
    decide_eq_false_iff_not] at h
  exact ⟨h.1.1.1, h.1.1.2, h.1.2, h.2⟩

theorem numStop_grab {cs : List Char} (h : numStop cs = true) :
    grabDigits cs = ([], cs) := by
  apply grabDigits_stop
  intro c hc
  cases cs with
  | nil => simp at hc
  | cons c0 t =>
      simp only [List.head?_cons, Option.some.injEq] at hc
      subst hc
      exact (numStop_head h).1

/-! ## Number round-trip -/

theorem readExpTail_int (e : Int) (rest : List Char) (h : numStop rest = true) :
    ∃ b v, readExpTail (intChars e ++ rest) = some (b, v, rest)
      ∧ (if b then -(v : Int) else (v : Int)) = e := by
  have hgrab : grabDigits (digitsOf e.natAbs ++ rest) =
      (digitsOf e.natAbs, rest) :=
    grabDigits_app _ (digitsOf_all_dig _) (numStop_grab h)
  by_cases he : e < 0
  · refine ⟨true, e.natAbs, ?_, by rw [if_pos rfl]; omega⟩
    have harg : intChars e ++ rest = '-' :: (digitsOf e.natAbs ++ rest) := by
      simp [intChars, he]
    rw [harg]
    simp only [readExpTail, List.head?_cons, List.tail_cons]
    simp [hgrab, digitsOf_ne_nil, digitsVal_digitsOf]
  · obtain ⟨c, t, hct, hc⟩ := digitsOf_cons e.natAbs
    have hne : c ≠ '-' := isDig_ne_of_toNat hc '-' (by decide)
    have hnp : c ≠ '+' := isDig_ne_of_toNat hc '+' (by decide)
    refine ⟨false, e.natAbs, ?_, by rw [if_neg (by decide)]; omega⟩
    have harg : intChars e ++ rest = digitsOf e.natAbs ++ rest := by
      simp [intChars, he]
    have hhd : (digitsOf e.natAbs ++ rest).head? = some c := by rw [hct]; rfl
    rw [harg]
    simp only [readExpTail, hhd]
    simp [hne, hnp, hgrab, digitsOf_ne_nil, digitsVal_digitsOf]

/-! ## String round-trip -/

theorem charOfNat_toNat (c : Char) : Char.ofNat c.toNat = c := by
  rw [Char.ofNat, dif_pos]
  apply Char.ext
  rfl

theorem hexv_hexDig {k : Nat} (h : k < 16) : hexv (hexDig k) = some k := by
  interval_cases k <;> decide

theorem readStrBody_esc (c : Char) (acc rest : List Char) :
    readStrBody acc (escChar c ++ rest) = readStrBody (c :: acc) rest := by
  by_cases hq : c = '"'
  · subst hq; simp [escChar, readStrBody, unesc]
  · by_cases hb : c = '\\'
    · subst hb; simp [escChar, readStrBody, unesc]
    · by_cases hp : 32 ≤ c.toNat
      · have harg : escChar c ++ rest = c :: rest := by
          simp [escChar, hq, hb, hp]
        rw [harg]
        simp [readStrBody, hq, hb]
        omega
      · -- a control character: either a short escape or a \u00XY escape
        by_cases h8 : c = Char.ofNat 8
        · subst h8; simp [escChar, readStrBody, unesc]
        · by_cases ht : c = '\t'
          · subst ht; simp [escChar, readStrBody, unesc]
          · by_cases hn : c = '\n'
            · subst hn; simp [escChar, readStrBody, unesc]
            · by_cases hf : c = Char.ofNat 12
              · subst hf; simp [escChar, readStrBody, unesc]
              · by_cases hr : c = '\r'
                · subst hr; simp [escChar, readStrBody, unesc]
                · have harg : escChar c ++ rest =
                      '\\' :: 'u' :: '0' :: '0' ::
                        hexDig (c.toNat / 16) :: hexDig (c.toNat % 16) :: rest := by
                    simp [escChar, hq, hb, hp, h8, ht, hn, hf, hr]
                  rw [harg]
                  have hhi : hexv (hexDig (c.toNat / 16)) = some (c.toNat / 16) :=
                    hexv_hexDig (by omega)
                  have hlo : hexv (hexDig (c.toNat % 16)) = some (c.toNat % 16) :=
                    hexv_hexDig (Nat.mod_lt _ (by omega))
                  simp only [readStrBody, hhi, hlo]
                  have harith : ((0 * 16 + 0) * 16 + c.toNat / 16) * 16
                      + c.toNat % 16 = c.toNat := by omega
                  rw [show hexv '0' = some 0 from rfl]
                  simp only [harith, charOfNat_toNat]

theorem readStrBody_flat (cs : List Char) : ∀ acc rest,
    readStrBody acc (cs.flatMap escChar ++ '"' :: rest)
      = some (String.mk (acc.reverse ++ cs), rest) := by
  induction cs with
  | nil => intro acc rest; simp [readStrBody]
  | cons c t ih =>
      intro acc rest
      rw [List.flatMap_cons, List.append_assoc, readStrBody_esc, ih]
      simp

theorem readStrBody_strChars (s : String) (rest : List Char) :
    readStrBody [] (s.data.flatMap escChar ++ '"' :: rest) = some (s, rest) := by
  rw [readStrBody_flat]
  cases s
  simp

theorem readNum_numChars (n : JNum) (rest : List Char) (h : numStop rest = true) :
    readNum (numChars n ++ rest) = some (n, rest) := by
  obtain ⟨m, e⟩ := n
  -- the characters after the integer digit run
  set T : List Char := (if e = 0 then [] else 'e' :: intChars e) ++ rest with hT
  have hTgrab : grabDigits T = ([], T) := by
    rw [hT]
    by_cases he : e = 0
    · simpa [he] using numStop_grab h
    · rw [if_neg he]
      exact grabDigits_stop (fun c hc => by
        simp only [List.cons_append, List.head?_cons, Option.some.injEq] at hc
        subst hc
        rfl)
  have hTdot : ¬T.head? = some '.' := by
    rw [hT]
    by_cases he : e = 0
    · simp only [he, if_pos, List.nil_append]
      cases rest with
      | nil => simp
      | cons c t =>
          simp only [List.head?_cons, Option.some.injEq]
          exact (numStop_head h).2.1
    · rw [if_neg he]
      simp
  have hTfrac : readFrac T = some ([], T) := by rw [readFrac, if_neg hTdot]
  have hTexp : readExp T =
      (if e = 0 then some (false, 0, rest) else readExpTail (intChars e ++ rest)) := by
    rw [hT]
    by_cases he : e = 0
    · rw [if_pos he, if_pos he, List.nil_append, readExp, if_neg]
      cases rest with
      | nil => simp
      | cons c t =>
          have hc := numStop_head h
          simp only [List.head?_cons, Option.some.injEq]
          push_neg
          exact ⟨hc.2.2.1, hc.2.2.2⟩
    · rw [if_neg he, if_neg he, readExp, if_pos]
      · rfl
      · simp
  have hdigits : grabDigits (digitsOf m.natAbs ++ T) = (digitsOf m.natAbs, T) :=
    grabDigits_app _ (digitsOf_all_dig _) hTgrab
  have hlead : ¬((digitsOf m.natAbs).head? = some '0'
      ∧ (digitsOf m.natAbs).length ≠ 1) := by
    rintro ⟨hz, hl⟩
    exact hl (digitsOf_zero_len _ hz)
  have hexp : ∃ b v, readExp T = some (b, v, rest)
      ∧ (if b then -(v : Int) else (v : Int)) = e := by
    by_cases he : e = 0
    · exact ⟨false, 0, by rw [hTexp, if_pos he], by simp [he]⟩
    · obtain ⟨b, v, hbv, hval⟩ := readExpTail_int e rest h
      exact ⟨b, v, by rw [hTexp, if_neg he, hbv], hval⟩
  obtain ⟨b, v, hbv, hval⟩ := hexp
  by_cases hm : m < 0
  · have harg : numChars ⟨m, e⟩ ++ rest
        = '-' :: (digitsOf m.natAbs ++ T) := by
      simp [numChars, intChars, hm, hT]
    rw [harg]
    simp only [readNum, List.head?_cons, List.tail_cons]
    simp [hdigits, digitsOf_ne_nil, hlead, hTfrac, hbv, digitsVal_digitsOf,
      hval, JNum.mk.injEq, -Int.natCast_natAbs]
    all_goals omega
  · obtain ⟨c, t, hct, hc⟩ := digitsOf_cons m.natAbs
    have hne : c ≠ '-' := isDig_ne_of_toNat hc '-' (by decide)
    have hhd : (digitsOf m.natAbs ++ T).head? = some c := by
      rw [hct]; rfl
    have harg : numChars ⟨m, e⟩ ++ rest
        = digitsOf m.natAbs ++ T := by
      simp [numChars, intChars, hm, hT]
    rw [harg]
    simp only [readNum, hhd]
    simp [hne, hdigits, digitsOf_ne_nil, hlead, hTfrac, hbv, digitsVal_digitsOf,
      hval, JNum.mk.injEq, -Int.natCast_natAbs]
    all_goals omega

/-! ## Whitespace invariance of the parser -/

theorem readVal_ws (fuel : Nat) (pre cs : List Char)
    (h : ∀ c ∈ pre, wsp c = true) :
    readVal fuel (pre ++ cs) = readVal fuel cs := by
  cases fuel with
  | zero => rfl
  | succ f =>
      simp only [readVal]
      rw [wsSkip_app pre cs h]

theorem readItems_ws (fuel : Nat) (pre cs : List Char)
    (h : ∀ c ∈ pre, wsp c = true) :
    readItems fuel (pre ++ cs) = readItems fuel cs := by
  cases fuel with
  | zero => rfl
  | succ f =>
      simp only [readItems]
      rw [readVal_ws f pre cs h]

theorem readEntries_ws (fuel : Nat) (pre cs : List Char)
    (h : ∀ c ∈ pre, wsp c = true) :
    readEntries fuel (pre ++ cs) = readEntries fuel cs := by
  cases fuel with
  | zero => rfl
  | succ f =>
      simp only [readEntries]
      rw [wsSkip_app pre cs h]

/-! ## Head shape of rendered values -/

theorem wsp_false_of {c : Char} (h1 : c ≠ ' ') (h2 : c ≠ '\n')
    (h3 : c ≠ '\t') (h4 : c ≠ '\r') : wsp c = false := by
  simp [wsp, h1, h2, h3, h4]

theorem jvChars_head (d : Nat) (j : JVal) :
    ∃ c t, jvChars d j = c :: t ∧ wsp c = false ∧ c ≠ ']' := by
  cases j with
  | jnull => exact ⟨'n', ['u', 'l', 'l'], by simp [jvChars], by decide, by decide⟩
  | jbool b => cases b with
      | true => exact ⟨'t', ['r', 'u', 'e'], by simp [jvChars], by decide, by decide⟩
      | false => exact ⟨'f', ['a', 'l', 's', 'e'], by simp [jvChars], by decide, by decide⟩
  | jstr s =>
      exact ⟨'"', s.data.flatMap escChar ++ ['"'],
        by simp [jvChars, strChars], by decide, by decide⟩
  | jarr xs => cases xs with
      | nil => exact ⟨'[', [']'], by simp [jvChars], by decide, by decide⟩
      | cons x xs =>
          exact ⟨'[', '\n' :: (itemsChars (d + 1) x xs ++ '\n' :: (pad d ++ [']'])),
            by simp [jvChars], by decide, by decide⟩
  | jobj es => cases es with
      | nil => exact ⟨curlyL, [curlyR], by simp [jvChars], by decide, by decide⟩
      | cons e es =>
          exact ⟨curlyL, '\n' :: (entriesChars (d + 1) e es ++ '\n' :: (pad d ++ [curlyR])),
            by simp [jvChars], by decide, by decide⟩
  | jnum n =>
      by_cases hm : n.mant < 0
      · refine ⟨'-', digitsOf n.mant.natAbs
            ++ (if n.exp10 = 0 then [] else 'e' :: intChars n.exp10),
            ?_, by decide, by decide⟩
        simp [jvChars, numChars, intChars, hm]
      · obtain ⟨c, t, hct, hc⟩ := digitsOf_cons n.mant.natAbs
        refine ⟨c, t ++ (if n.exp10 = 0 then [] else 'e' :: intChars n.exp10),
            ?_, ?_, ?_⟩
        · simp [jvChars, numChars, intChars, hm, hct]
        · exact wsp_false_of
            (isDig_ne_of_toNat hc ' ' (by decide))
            (isDig_ne_of_toNat hc '\n' (by decide))
            (isDig_ne_of_toNat hc '\t' (by decide))
            (isDig_ne_of_toNat hc '\r' (by decide))
        · exact isDig_ne_of_toNat hc ']' (by decide)

theorem numChars_cons (n : JNum) :
    ∃ c t, numChars n = c :: t ∧ (c = '-' ∨ isDig c = true) := by
  by_cases hm : n.mant < 0
  · exact ⟨'-', digitsOf n.mant.natAbs
        ++ (if n.exp10 = 0 then [] else 'e' :: intChars n.exp10),
      by simp [numChars, intChars, hm], Or.inl rfl⟩
  · obtain ⟨c, t, hct, hc⟩ := digitsOf_cons n.mant.natAbs
    exact ⟨c, t ++ (if n.exp10 = 0 then [] else 'e' :: intChars n.exp10),
      by simp [numChars, intChars, hm, hct], Or.inr hc⟩

theorem wsSkip_cons_ws {c : Char} (t : List Char) (h : wsp c = true) :
    wsSkip (c :: t) = wsSkip t := by
  simp [wsSkip, h]

/-- Every nonempty item run starts with its indentation and first value. -/
theorem itemsChars_shape (d : Nat) (x : JVal) (xs : List JVal) :
    ∃ sep, itemsChars d x xs = pad d ++ (jvChars d x ++ sep) := by
  cases xs with
  | nil => exact ⟨[], by simp [itemsChars]⟩
  | cons y ys =>
      exact ⟨',' :: '\n' :: itemsChars d y ys, by simp [itemsChars]⟩

/-- Every nonempty entry run starts with its indentation and a quote. -/
theorem entriesChars_shape (d : Nat) (kv : String × JVal) (es : List (String × JVal)) :
    ∃ bt, entriesChars d kv es = pad d ++ ('"' :: bt) := by
  obtain ⟨k, v⟩ := kv
  cases es with
  | nil =>
      exact ⟨(k.data.flatMap escChar ++ ['"']) ++ ':' :: ' ' :: jvChars d v,
        by simp [entriesChars, strChars]⟩
  | cons e es =>
      exact ⟨(k.data.flatMap escChar ++ ['"']) ++ ':' :: ' ' :: jvChars d v
          ++ ',' :: '\n' :: entriesChars d e es,
        by simp [entriesChars, strChars]⟩

/-- The parser's array branch, isolated. -/
theorem readVal_arrBranch (f : Nat) (r : List Char) :
    readVal (f + 1) ('[' :: r)
      = (match wsSkip r with
         | ']' :: r2 => some (.jarr [], r2)
         | r1 => (readItems f r1).map (fun p => (.jarr p.1, p.2))) := by
  simp only [readVal]
  rw [wsSkip_cons_not _ (by decide)]
  rfl

/-- The parser's object branch, isolated. -/
theorem readVal_objBranch (f : Nat) (r : List Char) :
    readVal (f + 1) (curlyL :: r)
      = (match wsSkip r with
         | [] => none
         | c2 :: r2 =>
             if c2 = curlyR then some (.jobj [], r2)
             else (readEntries f (c2 :: r2)).map (fun p => (.jobj p.1, p.2))) := by
  simp only [readVal]
  rw [wsSkip_cons_not _ (by decide)]
  rfl

/-- The array branch when the first item is already exposed. -/
theorem readVal_arrBranch2 (f : Nat) (r : List Char) (c2 : Char) (r2 : List Char)
    (h : wsSkip r = c2 :: r2) (hc : c2 ≠ ']') :
    readVal (f + 1) ('[' :: r)
      = (readItems f (c2 :: r2)).map (fun p => (.jarr p.1, p.2)) := by
  rw [readVal_arrBranch, h]
  split
  · rename_i heq
    exact absurd (List.head_eq_of_cons_eq heq.symm).symm hc
  · rfl

/-- The object branch when the first entry character is already exposed. -/
theorem readVal_objBranch2 (f : Nat) (r : List Char) (c2 : Char) (r2 : List Char)
    (h : wsSkip r = c2 :: r2) :
    readVal (f + 1) (curlyL :: r)
      = (if c2 = curlyR then some (.jobj [], r2)
         else (readEntries f (c2 :: r2)).map (fun p => (.jobj p.1, p.2))) := by
  rw [readVal_objBranch, h]

/-! ## The codec round-trip -/

theorem readRoundAux : ∀ fuel : Nat,
    (∀ d j rest, (jvChars d j).length < fuel → numStop rest = true →
      readVal fuel (jvChars d j ++ rest) = some (j, rest))
    ∧ (∀ d x xs dcl rest, (itemsChars d x xs).length + 1 < fuel →
      readItems fuel (itemsChars d x xs ++ '\n' :: (pad dcl ++ ']' :: rest))
        = some (x :: xs, rest))
    ∧ (∀ d kv es dcl rest, (entriesChars d kv es).length + 1 < fuel →
      readEntries fuel (entriesChars d kv es ++ '\n' :: (pad dcl ++ curlyR :: rest))
        = some (kv :: es, rest)) := by
  intro fuel
  induction fuel with
  | zero =>
      refine ⟨?_, ?_, ?_⟩
      · intro d j rest hlen _; omega
      · intro d x xs dcl rest hlen; omega
      · intro d kv es dcl rest hlen; omega
  | succ f ih =>
      obtain ⟨ihv, ihi, ihe⟩ := ih
      refine ⟨?_, ?_, ?_⟩
      · -- values
        intro d j rest hlen hstop
        cases j with
        | jnull =>
            have e1 : jvChars d .jnull ++ rest = 'n' :: 'u' :: 'l' :: 'l' :: rest := by
              simp [jvChars]
            rw [e1]
            simp only [readVal]
            rw [wsSkip_cons_not _ (by decide)]
            rfl
        | jbool b =>
            cases b with
            | true =>
                have e1 : jvChars d (.jbool true) ++ rest
                    = 't' :: 'r' :: 'u' :: 'e' :: rest := by simp [jvChars]
                rw [e1]
                simp only [readVal]
                rw [wsSkip_cons_not _ (by decide)]
                rfl
            | false =>
                have e1 : jvChars d (.jbool false) ++ rest
                    = 'f' :: 'a' :: 'l' :: 's' :: 'e' :: rest := by simp [jvChars]
                rw [e1]
                simp only [readVal]
                rw [wsSkip_cons_not _ (by decide)]
                rfl
        | jstr s =>
            have e1 : jvChars d (.jstr s) ++ rest
                = '"' :: (s.data.flatMap escChar ++ '"' :: rest) := by
              simp [jvChars, strChars]
            rw [e1]
            simp only [readVal]
            rw [wsSkip_cons_not _ (by decide)]
            simp [readStrBody_strChars]
        | jnum n =>
            obtain ⟨c, t, hct, hcd⟩ := numChars_cons n
            have e1 : jvChars d (.jnum n) ++ rest = c :: (t ++ rest) := by
              simp [jvChars, hct]
            have hwsp : wsp c = false := by
              rcases hcd with rfl | hd
              · decide
              · exact wsp_false_of
                  (isDig_ne_of_toNat hd ' ' (by decide))
                  (isDig_ne_of_toNat hd '\n' (by decide))
                  (isDig_ne_of_toNat hd '\t' (by decide))
                  (isDig_ne_of_toNat hd '\r' (by decide))
            have hn : c ≠ 'n' := by
              rcases hcd with rfl | hd
              · decide
              · exact isDig_ne_of_toNat hd 'n' (by decide)
            have ht : c ≠ 't' := by
              rcases hcd with rfl | hd
              · decide
              · exact isDig_ne_of_toNat hd 't' (by decide)
            have hf2 : c ≠ 'f' := by
              rcases hcd with rfl | hd
              · decide
              · exact isDig_ne_of_toNat hd 'f' (by decide)
            have hq : c ≠ '"' := by
              rcases hcd with rfl | hd
              · decide
              · exact isDig_ne_of_toNat hd '"' (by decide)
            have hbk : c ≠ '[' := by
              rcases hcd with rfl | hd
              · decide
              · exact isDig_ne_of_toNat hd '[' (by decide)
            have hcl : c ≠ curlyL := by
              rcases hcd with rfl | hd
              · decide
              · exact isDig_ne_of_toNat hd curlyL (by decide)
            have hdisp : (decide (c = '-') || isDig c) = true := by
              rcases hcd with rfl | hd
              · simp
              · simp [hd]
            have hnum : readNum (c :: (t ++ rest)) = some (n, rest) := by
              have : c :: (t ++ rest) = numChars n ++ rest := by simp [hct]
              rw [this]
              exact readNum_numChars n rest hstop
            rw [e1]
            simp only [readVal]
            rw [wsSkip_cons_not _ hwsp]
            simp [hn, ht, hf2, hq, hbk, hcl, hdisp, hnum]
        | jarr xs =>
            cases xs with
            | nil =>
                have e1 : jvChars d (.jarr []) ++ rest = '[' :: (']' :: rest) := by
                  simp [jvChars]
                rw [e1, readVal_arrBranch, wsSkip_cons_not _ (by decide)]
                rfl
            | cons x xs =>
                obtain ⟨c, t, hjv, hcw, hcbr⟩ := jvChars_head (d + 1) x
                obtain ⟨sep, hshape⟩ := itemsChars_shape (d + 1) x xs
                -- the items followed by the closing line
                have e1 : jvChars d (.jarr (x :: xs)) ++ rest
                    = '[' :: ('\n' :: (itemsChars (d + 1) x xs
                        ++ '\n' :: (pad d ++ (']' :: rest)))) := by
                  simp [jvChars]
                have hlen2 : (itemsChars (d + 1) x xs).length + 1 < f := by
                  have heq : (jvChars d (.jarr (x :: xs))).length
                      = (itemsChars (d + 1) x xs).length + 2 * d + 4 := by
                    simp [jvChars, pad_length]
                    omega
                  omega
                have hitems := ihi (d + 1) x xs d rest hlen2
                have hW : wsSkip ('\n' :: (itemsChars (d + 1) x xs
                    ++ '\n' :: (pad d ++ (']' :: rest))))
                    = c :: (t ++ (sep ++ '\n' :: (pad d ++ (']' :: rest)))) := by
                  rw [wsSkip_cons_ws _ (by decide), hshape]
                  rw [List.append_assoc, wsSkip_app _ _ (pad_ws _)]
                  rw [List.append_assoc, hjv, List.cons_append]
                  exact wsSkip_cons_not _ hcw
                have hfeed : readItems f
                    (c :: (t ++ (sep ++ '\n' :: (pad d ++ (']' :: rest)))))
                    = some (x :: xs, rest) := by
                  have h1 : c :: (t ++ (sep ++ '\n' :: (pad d ++ (']' :: rest))))
                      = jvChars (d + 1) x
                          ++ (sep ++ '\n' :: (pad d ++ (']' :: rest))) := by
                    simp [hjv]
                  rw [h1, ← readItems_ws f (pad (d + 1)) _ (pad_ws _)]
                  have h2 : pad (d + 1) ++ (jvChars (d + 1) x
                      ++ (sep ++ '\n' :: (pad d ++ (']' :: rest))))
                      = itemsChars (d + 1) x xs
                          ++ '\n' :: (pad d ++ (']' :: rest)) := by
                    rw [hshape]
                    simp [List.append_assoc]
                  rw [h2]
                  exact hitems
                rw [e1, readVal_arrBranch2 f _ _ _ hW hcbr, hfeed]
                rfl
        | jobj es =>
            cases es with
            | nil =>
                have e1 : jvChars d (.jobj []) ++ rest = curlyL :: (curlyR :: rest) := by
                  simp [jvChars]
                rw [e1, readVal_objBranch2 f _ _ _ (wsSkip_cons_not _ (by decide))]
                simp
            | cons kv es =>
                obtain ⟨bt, hshape⟩ := entriesChars_shape (d + 1) kv es
                have e1 : jvChars d (.jobj (kv :: es)) ++ rest
                    = curlyL :: ('\n' :: (entriesChars (d + 1) kv es
                        ++ '\n' :: (pad d ++ (curlyR :: rest)))) := by
                  simp [jvChars]
                have hlen2 : (entriesChars (d + 1) kv es).length + 1 < f := by
                  have heq : (jvChars d (.jobj (kv :: es))).length
                      = (entriesChars (d + 1) kv es).length + 2 * d + 4 := by
                    simp [jvChars, pad_length]
                    omega
                  omega
                have hentries := ihe (d + 1) kv es d rest hlen2
                have hW : wsSkip ('\n' :: (entriesChars (d + 1) kv es
                    ++ '\n' :: (pad d ++ (curlyR :: rest))))
                    = '"' :: (bt ++ '\n' :: (pad d ++ (curlyR :: rest))) := by
                  rw [wsSkip_cons_ws _ (by decide), hshape]
                  rw [List.append_assoc, wsSkip_app _ _ (pad_ws _), List.cons_append]
                  exact wsSkip_cons_not _ (by decide)
                have hfeed : readEntries f
                    ('"' :: (bt ++ '\n' :: (pad d ++ (curlyR :: rest))))
                    = some (kv :: es, rest) := by
                  rw [← readEntries_ws f (pad (d + 1)) _ (pad_ws _)]
                  have h2 : pad (d + 1) ++ ('"' :: (bt
                      ++ '\n' :: (pad d ++ (curlyR :: rest))))
                      = entriesChars (d + 1) kv es
                          ++ '\n' :: (pad d ++ (curlyR :: rest)) := by
                    rw [hshape]
                    simp
                  rw [h2]
                  exact hentries
                rw [e1, readVal_objBranch2 f _ _ _ hW]
                rw [if_neg (by decide), hfeed]
                rfl
      · -- item runs
        intro d x xs dcl rest hlen
        cases xs with
        | nil =>
            have e1 : itemsChars d x [] ++ '\n' :: (pad dcl ++ ']' :: rest)
                = pad d ++ (jvChars d x ++ '\n' :: (pad dcl ++ ']' :: rest)) := by
              simp [itemsChars]
            have hlenv : (jvChars d x).length < f := by
              have heq : (itemsChars d x []).length = 2 * d + (jvChars d x).length := by
                simp [itemsChars, pad_length]
              omega
            have hv := ihv d x ('\n' :: (pad dcl ++ ']' :: rest)) hlenv rfl
            have hws : wsSkip ('\n' :: (pad dcl ++ ']' :: rest)) = ']' :: rest := by
              rw [wsSkip_cons_ws _ (by decide), wsSkip_app _ _ (pad_ws dcl)]
              exact wsSkip_cons_not _ (by decide)
            simp only [readItems]
            rw [e1, readVal_ws f _ _ (pad_ws d), hv]
            simp [hws]
        | cons y ys =>
            have e1 : itemsChars d x (y :: ys) ++ '\n' :: (pad dcl ++ ']' :: rest)
                = pad d ++ (jvChars d x ++ ',' :: '\n'
                    :: (itemsChars d y ys ++ '\n' :: (pad dcl ++ ']' :: rest))) := by
              simp [itemsChars]
            have hlenv : (jvChars d x).length < f := by
              have heq : (itemsChars d x (y :: ys)).length
                  = 2 * d + (jvChars d x).length + 2 + (itemsChars d y ys).length := by
                simp [itemsChars, pad_length]
                omega
              omega
            have hlent : (itemsChars d y ys).length + 1 < f := by
              have heq : (itemsChars d x (y :: ys)).length
                  = 2 * d + (jvChars d x).length + 2 + (itemsChars d y ys).length := by
                simp [itemsChars, pad_length]
                omega
              omega
            have hv := ihv d x (',' :: '\n'
                :: (itemsChars d y ys ++ '\n' :: (pad dcl ++ ']' :: rest))) hlenv rfl
            have hrec := ihi d y ys dcl rest hlent
            have htail : readItems f ('\n'
                :: (itemsChars d y ys ++ '\n' :: (pad dcl ++ ']' :: rest)))
                = some (y :: ys, rest) := by
              have hw := readItems_ws f ['\n']
                (itemsChars d y ys ++ '\n' :: (pad dcl ++ ']' :: rest)) (by decide)
              simp only [List.cons_append, List.nil_append] at hw
              rw [hw]
              exact hrec
            have hws : wsSkip (',' :: '\n'
                :: (itemsChars d y ys ++ '\n' :: (pad dcl ++ ']' :: rest)))
                = ',' :: '\n'
                    :: (itemsChars d y ys ++ '\n' :: (pad dcl ++ ']' :: rest)) :=
              wsSkip_cons_not _ (by decide)
            simp only [readItems]
            rw [e1, readVal_ws f _ _ (pad_ws d), hv]
            simp [hws, htail]
      · -- entry runs
        intro d kv es dcl rest hlen
        obtain ⟨k, v⟩ := kv
        cases es with
        | nil =>
            have e1 : entriesChars d (k, v) [] ++ '\n' :: (pad dcl ++ curlyR :: rest)
                = pad d ++ ('"' :: (k.data.flatMap escChar
                    ++ '"' :: (':' :: (' ' :: (jvChars d v
                      ++ '\n' :: (pad dcl ++ curlyR :: rest)))))) := by
              simp [entriesChars, strChars]
            have hlenv : (jvChars d v).length < f := by
              have heq : (entriesChars d (k, v) []).length
                  = 2 * d + (strChars k).length + 2 + (jvChars d v).length := by
                simp [entriesChars, pad_length]
                omega
              omega
            have hv := ihv d v ('\n' :: (pad dcl ++ curlyR :: rest)) hlenv rfl
            have hv2 : readVal f (' ' :: (jvChars d v
                ++ '\n' :: (pad dcl ++ curlyR :: rest)))
                = some (v, '\n' :: (pad dcl ++ curlyR :: rest)) := by
              have hw := readVal_ws f [' ']
                (jvChars d v ++ '\n' :: (pad dcl ++ curlyR :: rest)) (by decide)
              simp only [List.cons_append, List.nil_append] at hw
              rw [hw]
              exact hv
            have hwcl : wsSkip ('\n' :: (pad dcl ++ curlyR :: rest))
                = curlyR :: rest := by
              rw [wsSkip_cons_ws _ (by decide), wsSkip_app _ _ (pad_ws dcl)]
              exact wsSkip_cons_not _ (by decide)
            have hrb := readStrBody_strChars k
              (':' :: (' ' :: (jvChars d v ++ '\n' :: (pad dcl ++ curlyR :: rest))))
            have hcm : (curlyR = ',') = False := eq_false (by decide)
            have hcc : (curlyR = curlyR) = True := eq_true rfl
            simp only [readEntries]
            rw [e1, wsSkip_app _ _ (pad_ws d), wsSkip_cons_not _ (by decide)]
            simp [hrb, hv2, hwcl, hcm, hcc, wsSkip_cons_not _ (by decide : wsp ':' = false)]
        | cons e2 es2 =>
            obtain ⟨k2, v2⟩ := e2
            have e1 : entriesChars d (k, v) ((k2, v2) :: es2)
                  ++ '\n' :: (pad dcl ++ curlyR :: rest)
                = pad d ++ ('"' :: (k.data.flatMap escChar
                    ++ '"' :: (':' :: (' ' :: (jvChars d v
                      ++ ',' :: '\n' :: (entriesChars d (k2, v2) es2
                        ++ '\n' :: (pad dcl ++ curlyR :: rest))))))) := by
              simp [entriesChars, strChars]
            have hlens : (entriesChars d (k, v) ((k2, v2) :: es2)).length
                = 2 * d + (strChars k).length + 2 + (jvChars d v).length
                    + 2 + (entriesChars d (k2, v2) es2).length := by
              simp [entriesChars, pad_length]
              omega
            have hlenv : (jvChars d v).length < f := by omega
            have hlent : (entriesChars d (k2, v2) es2).length + 1 < f := by omega
            have hv := ihv d v (',' :: '\n' :: (entriesChars d (k2, v2) es2
                ++ '\n' :: (pad dcl ++ curlyR :: rest))) hlenv rfl
            have hrec := ihe d (k2, v2) es2 dcl rest hlent
            have hv2 : readVal f (' ' :: (jvChars d v
                ++ ',' :: '\n' :: (entriesChars d (k2, v2) es2
                  ++ '\n' :: (pad dcl ++ curlyR :: rest))))
                = some (v, ',' :: '\n' :: (entriesChars d (k2, v2) es2
                  ++ '\n' :: (pad dcl ++ curlyR :: rest))) := by
              have hw := readVal_ws f [' ']
                (jvChars d v ++ ',' :: '\n' :: (entriesChars d (k2, v2) es2
                  ++ '\n' :: (pad dcl ++ curlyR :: rest))) (by decide)
              simp only [List.cons_append, List.nil_append] at hw
              rw [hw]
              exact hv
            have htail : readEntries f ('\n' :: (entriesChars d (k2, v2) es2
                ++ '\n' :: (pad dcl ++ curlyR :: rest)))
                = some ((k2, v2) :: es2, rest) := by
              have hw := readEntries_ws f ['\n']
                (entriesChars d (k2, v2) es2 ++ '\n' :: (pad dcl ++ curlyR :: rest))
                (by decide)
              simp only [List.cons_append, List.nil_append] at hw
              rw [hw]
              exact hrec
            have hrb := readStrBody_strChars k
              (':' :: (' ' :: (jvChars d v ++ ',' :: '\n'
                :: (entriesChars d (k2, v2) es2
                  ++ '\n' :: (pad dcl ++ curlyR :: rest)))))
            simp only [readEntries]
            rw [e1, wsSkip_app _ _ (pad_ws d), wsSkip_cons_not _ (by decide)]
            simp [hrb, hv2, htail, wsSkip_cons_not _ (by decide : wsp ':' = false),
              wsSkip_cons_not _ (by decide : wsp ',' = false)]

/-- **Codec round-trip**: parsing a pretty-printed value recovers it exactly.
This is the model-level fact behind "persist then re-read yields an equal
entity" for the `config.json` store. -/
theorem jsonParse_renderPretty (v : JVal) : jsonParse (renderPretty v) = some v := by
  have h := (readRoundAux ((jvChars 0 v).length + 1)).1 0 v [] (by omega) rfl
  simp only [List.append_nil] at h
  have hd : (renderPretty v).data = jvChars 0 v := rfl
  simp only [jsonParse, hd, h]
  rfl

/-! ## Data model (`src/electron/main/types.ts`) -/

inductive ProjectStatus where
  | sleeping
  | checking
  | awake
  | paused
  | rate_limited
deriving DecidableEq, Repr

structure Project where
  id : String
  path : String
  name : String
  status : ProjectStatus
  currentMilestone : Option String
  round : Nat
  nextWakeTime : Option String
  addedAt : String
deriving DecidableEq, Repr

structure AppConfig where
  projects : List Project
deriving DecidableEq, Repr

/-! ## JSON encoding of the data model

`JSON.stringify` serializes a `Project` object's fields in insertion order;
`encodeProject` is that JSON value.  `decodeProject` is its inverse,
used to state that a re-read value equals the one written. -/

def statusStr : ProjectStatus → String
  | .sleeping => "sleeping"
  | .checking => "checking"
  | .awake => "awake"
  | .paused => "paused"
  | .rate_limited => "rate_limited"

def statusOf (s : String) : Option ProjectStatus :=
  if s = "sleeping" then some .sleeping
  else if s = "checking" then some .checking
  else if s = "awake" then some .awake
  else if s = "paused" then some .paused
  else if s = "rate_limited" then some .rate_limited
  else none

def optStrVal : Option String → JVal
  | none => .jnull
  | some s => .jstr s

def encodeProject (p : Project) : JVal :=
  .jobj [("id", .jstr p.id), ("path", .jstr p.path), ("name", .jstr p.name),
    ("status", .jstr (statusStr p.status)),
    ("currentMilestone", optStrVal p.currentMilestone),
    ("round", .jnum ⟨(p.round : Int), 0⟩),
    ("nextWakeTime", optStrVal p.nextWakeTime),
    ("addedAt", .jstr p.addedAt)]

def encodeConfig (c : AppConfig) : JVal :=
  .jobj [("projects", .jarr (c.projects.map encodeProject))]

def decodeOptStr : JVal → Option (Option String)
  | .jnull => some none
  | .jstr s => some (some s)
  | _ => none

def decodeNatNum : JVal → Option Nat
  | .jnum n => if n.exp10 = 0 ∧ 0 ≤ n.mant then some n.mant.toNat else none
  | _ => none

def decodeProject : JVal → Option Project
  | .jobj [("id", .jstr i), ("path", .jstr pa), ("name", .jstr na),
      ("status", .jstr st), ("currentMilestone", cm), ("round", rd),
      ("nextWakeTime", nw), ("addedAt", .jstr ad)] =>
      match statusOf st, decodeOptStr cm, decodeNatNum rd, decodeOptStr nw with
      | some s, some c, some r, some n => some ⟨i, pa, na, s, c, r, n, ad⟩
      | _, _, _, _ => none
  | _ => none

def decodeProjects : List JVal → Option (List Project)
  | [] => some []
  | v :: vs =>
      match decodeProject v, decodeProjects vs with
      | some p, some ps => some (p :: ps)
      | _, _ => none

def decodeConfig : JVal → Option AppConfig
  | .jobj [("projects", .jarr items)] => (decodeProjects items).map AppConfig.mk
  | _ => none

theorem decodeProject_encodeProject (p : Project) :
    decodeProject (encodeProject p) = some p := by
  obtain ⟨i, pa, na, st, cm, rd, nw, ad⟩ := p
  cases st <;> cases cm <;> cases nw <;>
    simp [encodeProject, decodeProject, statusStr, statusOf, optStrVal,
      decodeOptStr, decodeNatNum]

theorem decodeProjects_map (l : List Project) :
    decodeProjects (l.map encodeProject) = some l := by
  induction l with
  | nil => rfl
  | cons p t ih => simp [decodeProjects, decodeProject_encodeProject, ih]

theorem decodeConfig_encodeConfig (c : AppConfig) :
    decodeConfig (encodeConfig c) = some c := by
  obtain ⟨ps⟩ := c
  simp [encodeConfig, decodeConfig, decodeProjects_map]

/-! ## The store (`src/electron/main/store.ts`)

The on-disk state of `config.json` is a `FsState`: whether the config
directory exists and the file's content (`none` = absent).  File-system
effects are recorded as a trace of `FsOp`s: `ensureConfigDir`'s recursive
`mkdirSync` and `saveConfig`'s `writeFileSync` (with Node's default `utf8`
encoding for string data).  There is no other operation: `saveConfig`
writes the serialized config directly to `CONFIG_FILE`. -/

inductive FileEnc where
  | utf8
deriving DecidableEq, Repr

inductive FsOp where
  | mkdirRec (dir : String)
  | writeFile (path : String) (content : String) (enc : FileEnc)
  | renameFile (src : String) (dst : String)
deriving DecidableEq, Repr

def FsOp.isRename : FsOp → Bool
  | .renameFile _ _ => true
  | _ => false

def FsOp.isWrite : FsOp → Bool
  | .writeFile _ _ _ => true
  | _ => false

structure FsState where
  dirExists : Bool
  file : Option String
deriving DecidableEq, Repr

/-- `CONFIG_FILE = path.join(app.getPath('userData'), 'config.json')`. -/
def configFilePath (userData : String) : String := userData ++ "/config.json"

/-- `path.dirname(CONFIG_FILE)`, the directory `ensureConfigDir` creates. -/
def configDirPath (userData : String) : String := userData

/-- `path.basename`: the last portion of a path, trailing separators ignored. -/
def pathBasename (p : String) : String :=
  String.mk (((p.data.reverse.dropWhile (fun c => c == '/')).takeWhile
    (fun c => c != '/')).reverse)

/-- `saveConfig(config)`: ensure the directory, then one direct
`writeFileSync(CONFIG_FILE, JSON.stringify(config, null, 2))`.  Returns the
resulting file state and the trace of file-system operations performed. -/
def saveConfigSt (userData : String) (st : FsState) (c : AppConfig) :
    FsState × List FsOp :=
  let content := renderPretty (encodeConfig c)
  (⟨true, some content⟩,
    (if st.dirExists then [] else [FsOp.mkdirRec (configDirPath userData)])
      ++ [FsOp.writeFile (configFilePath userData) content FileEnc.utf8])

/-- The JSON value `loadConfig()` returns: the object literal
`{ projects: [] }` when the file is absent or `JSON.parse` throws (the
`catch` swallows the error), otherwise whatever the file parses to. -/
def loadConfigVal (st : FsState) : JVal :=
  match st.file with
  | none => encodeConfig ⟨[]⟩
  | some s =>
      match jsonParse s with
      | some v => v
      | none => encodeConfig ⟨[]⟩

/-- `loadConfig()` viewed at the `AppConfig` type; `none` when the file holds
valid JSON that is not shaped like an `AppConfig`. -/
def loadConfigApp (st : FsState) : Option AppConfig :=
  decodeConfig (loadConfigVal st)

/-- `getProjects()`: `loadConfig().projects`. -/
def getProjectsSt (st : FsState) : Option (List Project) :=
  (loadConfigApp st).map (fun c => c.projects)

/-- The `Project` record `addProject` constructs (`randomUUID()` and
`new Date().toISOString()` are inputs of the model). -/
def mkProject (projectPath newId now : String) : Project :=
  { id := newId
    path := projectPath
    name := pathBasename projectPath
    status := .sleeping
    currentMilestone := none
    round := 0
    nextWakeTime := none
    addedAt := now }

/-- `addProject(projectPath)`: load, push, save. -/
def addProjectSt (userData projectPath newId now : String) (st : FsState) :
    Option (FsState × List FsOp × Project) :=
  (loadConfigApp st).map (fun c =>
    let project := mkProject projectPath newId now
    let r := saveConfigSt userData st ⟨c.projects ++ [project]⟩
    (r.1, r.2, project))

/-- The filter `removeProject` applies: `projects.filter((p) => p.id !== id)`. -/
def removeProjectPure (idv : String) (ps : List Project) : List Project :=
  ps.filter (fun p => p.id != idv)

/-- `removeProject(id)`: load, filter, save. -/
def removeProjectSt (userData idv : String) (st : FsState) :
    Option (FsState × List FsOp) :=
  (loadConfigApp st).map (fun c =>
    saveConfigSt userData st ⟨removeProjectPure idv c.projects⟩)

theorem loadConfig_saveConfig (userData : String) (st : FsState) (c : AppConfig) :
    loadConfigApp (saveConfigSt userData st c).1 = some c := by
  simp [saveConfigSt, loadConfigApp, loadConfigVal, jsonParse_renderPretty,
    decodeConfig_encodeConfig]

/-! ## The tray (`src/electron/main/tray.ts`) -/

inductive TrayIconStatus where
  | sleeping
  | checking
  | awake
  | paused
deriving DecidableEq, Repr

/-- `getAggregateStatus(projects)`, translated clause by clause. -/
def getAggregateStatus (projects : List Project) : TrayIconStatus :=
  if projects.length = 0 then .sleeping
  else if projects.any (fun p => p.status == ProjectStatus.paused) then .paused
  else if projects.any (fun p => p.status == ProjectStatus.awake) then .awake
  else if projects.any (fun p => p.status == ProjectStatus.checking
      || p.status == ProjectStatus.rate_limited) then .checking
  else .sleeping

/-- The aggregate-status rule as the claim states it, written independently
of the implementation. -/
def aggregateStatusSpec (projects : List Project) : TrayIconStatus :=
  if projects = [] then .sleeping
  else if ∃ p ∈ projects, p.status = ProjectStatus.paused then .paused
  else if ∃ p ∈ projects, p.status = ProjectStatus.awake then .awake
  else if ∃ p ∈ projects, p.status = ProjectStatus.checking
      ∨ p.status = ProjectStatus.rate_limited then .checking
  else .sleeping

/-! ## Registry operation sequences

The only mutations of the project registry the main process exposes are
`addProject` and `removeProject` (`ipc.ts` handlers).  At the `AppConfig`
level they are pure list operations; `RegOp` is one invocation with the
environment-supplied values (`randomUUID()`, `toISOString()`) as data. -/

inductive RegOp where
  | addOp (projectPath newId now : String)
  | removeOp (idv : String)

def applyRegOp (c : AppConfig) : RegOp → AppConfig
  | .addOp p i t => ⟨c.projects ++ [mkProject p i t]⟩
  | .removeOp i => ⟨removeProjectPure i c.projects⟩

def applyRegOps (c : AppConfig) (ops : List RegOp) : AppConfig :=
  ops.foldl applyRegOp c

/-- The spec's `ProjectState` invariant restricted to the registry record:
`currentMilestone` is non-null exactly when the status is one of
`awake`, `paused`, `rate_limited`. -/
def regInvariant (c : AppConfig) : Prop :=
  ∀ p ∈ c.projects,
    (p.currentMilestone ≠ none
      ↔ (p.status = ProjectStatus.awake ∨ p.status = ProjectStatus.paused
          ∨ p.status = ProjectStatus.rate_limited))

/-! ## Iteration engine

Modelled from the spec: the repository contains the Developer/Acceptor
iteration engine only as design documents (`spec.md` §4.6, the milestone
documents `M4-iteration-loop.md` / M3); no TypeScript implementation
exists under the sources.  `engineStep` transcribes the spec's main-loop
pseudocode: per-round `ACCEPTED` zeroes `consecutiveRejections` and
increments `iterationCount` (pausing at `maxIterationsPerMilestone`);
rejections and timeouts increment the rejection counter and pause at
three; `ALL_FEATURES_COMPLETE` enters final review, whose rejection does
not touch the counter; human resume zeroes the counter. -/

inductive EnginePhase where
  | running
  | finalReview
  | pausedForHuman
  | milestoneDone
deriving DecidableEq, Repr

structure EngineSt where
  iterationCount : Nat
  consecutiveRejections : Nat
  phase : EnginePhase
deriving DecidableEq, Repr

inductive LoopEvent where
  | devTimeout
  | devAllComplete
  | roundAccepted
  | roundRejected
  | roundTimeout
  | finalAccepted
  | finalRejected
  | humanResume
deriving DecidableEq, Repr

/-- Modelled from the spec: one reaction of the main loop (§4.6) to a
terminal event of the current exchange. -/
def engineStep (maxIter : Nat) (s : EngineSt) (e : LoopEvent) : EngineSt :=
  match s.phase, e with
  | .running, .devTimeout =>
      let cr := s.consecutiveRejections + 1
      { s with consecutiveRejections := cr,
               phase := if 3 ≤ cr then .pausedForHuman else .running }
  | .running, .devAllComplete => { s with phase := .finalReview }
  | .running, .roundAccepted =>
      let ic := s.iterationCount + 1
      { s with consecutiveRejections := 0, iterationCount := ic,
               phase := if maxIter ≤ ic then .pausedForHuman else .running }
  | .running, .roundRejected =>
      let cr := s.consecutiveRejections + 1
      { s with consecutiveRejections := cr,
               phase := if 3 ≤ cr then .pausedForHuman else .running }
  | .running, .roundTimeout =>
      let cr := s.consecutiveRejections + 1
      { s with consecutiveRejections := cr,
               phase := if 3 ≤ cr then .pausedForHuman else .running }
  | .finalReview, .finalAccepted => { s with phase := .milestoneDone }
  | .finalReview, .finalRejected => { s with phase := .running }
  | .pausedForHuman, .humanResume =>
      { s with consecutiveRejections := 0, phase := .running }
  | _, _ => s

/-- A run of the main loop over a sequence of events. -/
def engineRun (maxIter : Nat) (s : EngineSt) (evs : List LoopEvent) : EngineSt :=
  evs.foldl (engineStep maxIter) s

/-! ## Supporting lemmas for the claims -/

/-- Characters at or above `0x80` are never escaped. -/
theorem escChar_nonAscii {c : Char} (h : 128 ≤ c.toNat) : escChar c = [c] := by
  rw [escChar, if_neg, if_neg, if_pos]
  · omega
  · intro hEq
    subst hEq
    simp at h
  · intro hEq
    subst hEq
    simp at h

theorem hexDig_lt {k : Nat} (h : k < 16) : (hexDig k).toNat < 128 := by
  interval_cases k <;> decide

/-- Escaping an ASCII character produces only ASCII characters. -/
theorem escChar_ascii {c : Char} (h : c.toNat < 128) :
    ∀ x ∈ escChar c, x.toNat < 128 := by
  intro x hx
  rw [escChar] at hx
  split_ifs at hx with h1 h2 h3 h4 h5 h6 h7 h8 <;>
    simp only [List.mem_cons, List.not_mem_nil, or_false] at hx
  · rcases hx with rfl | rfl <;> decide
  · rcases hx with rfl | rfl <;> decide
  · subst hx; exact h
  · rcases hx with rfl | rfl <;> decide
  · rcases hx with rfl | rfl <;> decide
  · rcases hx with rfl | rfl <;> decide
  · rcases hx with rfl | rfl <;> decide
  · rcases hx with rfl | rfl <;> decide
  · rcases hx with rfl | rfl | rfl | rfl | rfl | rfl
    · decide
    · decide
    · decide
    · decide
    · exact hexDig_lt (by omega)
    · exact hexDig_lt (Nat.mod_lt _ (by omega))

/-- Escaping preserves the non-ASCII subsequence of a string exactly. -/
theorem escape_preserves_nonAscii (cs : List Char) :
    (cs.flatMap escChar).filter (fun ch => 128 ≤ ch.toNat)
      = cs.filter (fun ch => 128 ≤ ch.toNat) := by
  induction cs with
  | nil => rfl
  | cons c t ih =>
      rw [List.flatMap_cons, List.filter_append, ih]
      by_cases h : 128 ≤ c.toNat
      · rw [escChar_nonAscii h]
        simp [h]
      · have hall : ∀ x ∈ escChar c, ¬(128 ≤ x.toNat) := by
          intro x hx
          have := escChar_ascii (by omega) x hx
          omega
        have h1 : (escChar c).filter (fun ch => 128 ≤ ch.toNat) = [] := by
          rw [List.filter_eq_nil_iff]
          intro x hx
          simpa using hall x hx
        rw [h1]
        simp [h]

/-- The indentation used by the pretty printer is two spaces per level. -/
theorem pad_eq_replicate (d : Nat) : pad d = List.replicate (2 * d) ' ' := by
  induction d with
  | zero => rfl
  | succ k ih =>
      have h2 : 2 * (k + 1) = (2 * k) + 1 + 1 := by omega
      rw [pad, ih, h2, List.replicate_succ, List.replicate_succ]

/-- Removing twice filters twice, which is filtering once. -/
theorem removeProjectPure_idem (idv : String) (ps : List Project) :
    removeProjectPure idv (removeProjectPure idv ps) = removeProjectPure idv ps := by
  rw [removeProjectPure, removeProjectPure, List.filter_filter]
  congr 1
  funext p
  rw [Bool.and_self]

/-! ## The claims -/

/-- What claim C1 asserts of a write trace: the content reaches the target
via a differently-named sibling that is then renamed over it. -/
def wroteAtomically (target : String) (ops : List FsOp) : Prop :=
  ∃ tmp content enc, tmp ≠ target
    ∧ FsOp.writeFile tmp content enc ∈ ops
    ∧ FsOp.renameFile tmp target ∈ ops

/-- C1, counterexample: `saveConfig` of the empty registry (directory already
present) performs no temp-sibling write and no rename at all, so the write
is not atomic in the claimed sense. -/
theorem C1_counterexample :
    ¬ wroteAtomically (configFilePath "/ud")
        (saveConfigSt "/ud" ⟨true, none⟩ ⟨[]⟩).2 := by
  rintro ⟨tmp, content, enc, hne, hw, hr⟩
  simp [saveConfigSt] at hr

/-- C1, amended: `saveConfig` is a single direct `writeFileSync` of the
serialized config to `CONFIG_FILE`; the trace contains exactly that one
write and never a rename, so an interruption mid-write can leave a
partially written file. -/
theorem C1_direct_write (userData : String) (st : FsState) (c : AppConfig) :
    (saveConfigSt userData st c).2.filter FsOp.isWrite
        = [FsOp.writeFile (configFilePath userData)
            (renderPretty (encodeConfig c)) FileEnc.utf8]
    ∧ ∀ op ∈ (saveConfigSt userData st c).2, op.isRename = false := by
  constructor
  · by_cases h : st.dirExists <;> simp [saveConfigSt, h, FsOp.isWrite]
  · intro op hop
    by_cases h : st.dirExists <;> simp [saveConfigSt, h] at hop
    · subst hop; rfl
    · rcases hop with rfl | rfl <;> rfl

/-- C2, counterexample: on the unparseable content `"\x7b"` the read does
not surface any corrupt-kind result carrying the raw text — it substitutes
the default `{ projects: [] }`, the very value an absent file produces. -/
theorem C2_counterexample :
    jsonParse "\x7b" = none
    ∧ loadConfigVal ⟨true, some "\x7b"⟩ = encodeConfig ⟨[]⟩
    ∧ loadConfigVal ⟨true, some "\x7b"⟩ = loadConfigVal ⟨true, none⟩ := by
  refine ⟨rfl, rfl, rfl⟩

/-- C2, amended: for every on-disk content that is not valid JSON,
`loadConfig` catches the parse error and returns the default
`{ projects: [] }`; the raw content is discarded. -/
theorem C2_corrupt_default (dirE : Bool) (s : String) (h : jsonParse s = none) :
    loadConfigVal ⟨dirE, some s⟩ = encodeConfig ⟨[]⟩ := by
  simp [loadConfigVal, h]

/-- C2, witness: the amended statement at the concrete corrupt content. -/
theorem C2_witness :
    jsonParse "\x7b" = none
    ∧ loadConfigVal ⟨true, some "\x7b"⟩ = encodeConfig ⟨[]⟩ :=
  ⟨rfl, C2_corrupt_default true "\x7b" rfl⟩

/-- C3: over every run of the modelled main loop, `iterationCount` is
monotonic non-decreasing (stepwise and over whole event sequences), and a
per-round `ACCEPTED` verdict sets `consecutiveRejections` to `0`. -/
theorem C3_engine_counters :
    (∀ maxIter (s : EngineSt) (e : LoopEvent),
      s.iterationCount ≤ (engineStep maxIter s e).iterationCount)
    ∧ (∀ maxIter (s : EngineSt) (evs : List LoopEvent),
      s.iterationCount ≤ (engineRun maxIter s evs).iterationCount)
    ∧ (∀ maxIter (s : EngineSt), s.phase = EnginePhase.running →
      (engineStep maxIter s LoopEvent.roundAccepted).consecutiveRejections = 0) := by
  have hstep : ∀ maxIter (s : EngineSt) (e : LoopEvent),
      s.iterationCount ≤ (engineStep maxIter s e).iterationCount := by
    intro maxIter s e
    cases e <;> cases hp : s.phase <;> simp [engineStep, hp]
  refine ⟨hstep, ?_, ?_⟩
  · intro maxIter s evs
    induction evs generalizing s with
    | nil => simp [engineRun]
    | cons e t ih =>
        calc s.iterationCount
            ≤ (engineStep maxIter s e).iterationCount := hstep maxIter s e
          _ ≤ (engineRun maxIter (engineStep maxIter s e) t).iterationCount :=
              ih (engineStep maxIter s e)
          _ = (engineRun maxIter s (e :: t)).iterationCount := rfl
  · intro maxIter s h
    simp [engineStep, h]

/-- C3, witness: the counters at a concrete running state and trace. -/
theorem C3_witness :
    (engineStep 10 ⟨2, 2, EnginePhase.running⟩
        LoopEvent.roundAccepted).consecutiveRejections = 0
    ∧ (⟨2, 2, EnginePhase.running⟩ : EngineSt).iterationCount
        ≤ (engineRun 10 ⟨2, 2, EnginePhase.running⟩
            [LoopEvent.roundRejected, LoopEvent.roundAccepted]).iterationCount :=
  ⟨C3_engine_counters.2.2 10 ⟨2, 2, EnginePhase.running⟩ rfl,
   C3_engine_counters.2.1 10 ⟨2, 2, EnginePhase.running⟩ _⟩

/-- C4: `addProject` always creates a sleeping project with no current
milestone; the milestone/status equivalence is preserved by every registry
operation; hence it holds for every record reachable from the empty
registry through `addProject`/`removeProject` sequences. -/
theorem C4_registry_invariant :
    (∀ p i t, (mkProject p i t).status = ProjectStatus.sleeping
        ∧ (mkProject p i t).currentMilestone = none)
    ∧ (∀ (c : AppConfig) (op : RegOp),
        regInvariant c → regInvariant (applyRegOp c op))
    ∧ (∀ ops : List RegOp, regInvariant (applyRegOps ⟨[]⟩ ops)) := by
  have hpres : ∀ (c : AppConfig) (op : RegOp),
      regInvariant c → regInvariant (applyRegOp c op) := by
    intro c op h
    cases op with
    | addOp p i t =>
        intro q hq
        simp only [applyRegOp, List.mem_append, List.mem_singleton] at hq
        rcases hq with hq | rfl
        · exact h q hq
        · simp [mkProject]
    | removeOp i =>
        intro q hq
        simp only [applyRegOp, removeProjectPure, List.mem_filter] at hq
        exact h q hq.1
  have hrun : ∀ (ops : List RegOp) (c : AppConfig),
      regInvariant c → regInvariant (applyRegOps c ops) := by
    intro ops
    induction ops with
    | nil => exact fun c h => h
    | cons op t ih => exact fun c h => ih (applyRegOp c op) (hpres c op h)
  have hbase : regInvariant ⟨[]⟩ := by
    intro p hp
    simp at hp
  exact ⟨fun p i t => ⟨rfl, rfl⟩, hpres, fun ops => hrun ops ⟨[]⟩ hbase⟩

/-- C4, witness: the preservation conjunct at a concrete registry and op. -/
theorem C4_witness :
    regInvariant (applyRegOp ⟨[]⟩ (RegOp.addOp "/tmp/demo" "id-1" "t0")) :=
  C4_registry_invariant.2.1 ⟨[]⟩ (RegOp.addOp "/tmp/demo" "id-1" "t0")
    (by intro p hp; simp at hp)

/-- C5: persisting any config with `saveConfig` and re-reading it with
`loadConfig` yields an equal value, and a registration created by
`addProject` is present after a fresh load from disk. -/
theorem C5_roundtrip :
    (∀ userData (st : FsState) (c : AppConfig),
      loadConfigApp (saveConfigSt userData st c).1 = some c)
    ∧ (∀ userData projectPath newId now (st : FsState) (c0 : AppConfig),
      loadConfigApp st = some c0 →
      ∃ st' ops proj,
        addProjectSt userData projectPath newId now st = some (st', ops, proj)
        ∧ ∃ c', loadConfigApp st' = some c' ∧ proj ∈ c'.projects) := by
  refine ⟨loadConfig_saveConfig, ?_⟩
  intro userData projectPath newId now st c0 h
  refine ⟨(saveConfigSt userData st
      ⟨c0.projects ++ [mkProject projectPath newId now]⟩).1,
    (saveConfigSt userData st
      ⟨c0.projects ++ [mkProject projectPath newId now]⟩).2,
    mkProject projectPath newId now, ?_, ?_⟩
  · simp [addProjectSt, h]
  · refine ⟨⟨c0.projects ++ [mkProject projectPath newId now]⟩,
      loadConfig_saveConfig userData st _, ?_⟩
    simp

/-- C5, witness: a fresh first launch (absent file), then one `addProject`;
the registration is present after reloading from disk. -/
theorem C5_witness :
    loadConfigApp ⟨true, none⟩ = some ⟨[]⟩
    ∧ ∃ st' ops proj,
        addProjectSt "/u" "/a/demo" "id-1" "t0" ⟨true, none⟩ = some (st', ops, proj)
        ∧ ∃ c', loadConfigApp st' = some c' ∧ proj ∈ c'.projects :=
  ⟨rfl, C5_roundtrip.2 "/u" "/a/demo" "id-1" "t0" ⟨true, none⟩ ⟨[]⟩ rfl⟩

/-- C6: `removeProject` is idempotent on the persisted registry — after one
call succeeds, calling it again with the same id reads back the state it
just wrote, filters nothing further, and writes the identical state. -/
theorem C6_remove_idempotent (userData idv : String) (st st₁ : FsState)
    (ops₁ : List FsOp)
    (h : removeProjectSt userData idv st = some (st₁, ops₁)) :
    ∃ ops₂, removeProjectSt userData idv st₁ = some (st₁, ops₂) := by
  rw [removeProjectSt] at h
  cases hld : loadConfigApp st with
  | none => rw [hld] at h; simp at h
  | some c =>
      rw [hld] at h
      simp only [Option.map_some', Option.some.injEq] at h
      have hst₁ : st₁ = (saveConfigSt userData st ⟨removeProjectPure idv c.projects⟩).1 := by
        rw [h]
      have hld₁ : loadConfigApp st₁ = some ⟨removeProjectPure idv c.projects⟩ := by
        rw [hst₁]
        exact loadConfig_saveConfig userData st _
      refine ⟨(saveConfigSt userData st₁ ⟨removeProjectPure idv c.projects⟩).2, ?_⟩
      rw [removeProjectSt, hld₁]
      simp only [Option.map_some', Option.some.injEq, removeProjectPure_idem]
      apply Prod.ext
      · rw [hst₁]
        rfl
      · rfl

/-- C6, witness: removing from a freshly-created empty registry twice. -/
theorem C6_witness :
    ∃ ops₂, removeProjectSt "/u" "x"
        ⟨true, some (renderPretty (encodeConfig ⟨[]⟩))⟩
      = some (⟨true, some (renderPretty (encodeConfig ⟨[]⟩))⟩, ops₂) :=
  C6_remove_idempotent "/u" "x" ⟨true, none⟩
    ⟨true, some (renderPretty (encodeConfig ⟨[]⟩))⟩
    [FsOp.writeFile (configFilePath "/u")
      (renderPretty (encodeConfig ⟨[]⟩)) FileEnc.utf8] rfl

/-- C7: every file the store writes is the 2-space pretty-printed UTF-8
serialization: the trace contains the direct `utf8` write of
`JSON.stringify(config, null, 2)`; the printer's indentation is exactly two
spaces per nesting level; and escaping touches only ASCII, so every
non-ASCII character of every string is preserved unescaped. -/
theorem C7_serialization_format :
    (∀ userData (st : FsState) (c : AppConfig),
      FsOp.writeFile (configFilePath userData)
        (renderPretty (encodeConfig c)) FileEnc.utf8 ∈ (saveConfigSt userData st c).2)
    ∧ (∀ d, pad d = List.replicate (2 * d) ' ')
    ∧ (∀ s : String,
      (s.data.flatMap escChar).filter (fun ch => 128 ≤ ch.toNat)
        = s.data.filter (fun ch => 128 ≤ ch.toNat)) := by
  refine ⟨?_, pad_eq_replicate, fun s => escape_preserves_nonAscii s.data⟩
  intro userData st c
  by_cases h : st.dirExists <;> simp [saveConfigSt, h]

/-- C8: the tray's aggregate status agrees with the claimed rule — empty
list means sleeping, otherwise paused, awake, then checking (with
`rate_limited` mapped to the checking icon, not a distinct one), else
sleeping. -/
theorem C8_aggregate_status (projects : List Project) :
    getAggregateStatus projects = aggregateStatusSpec projects := by
  simp [getAggregateStatus, aggregateStatusSpec, List.any_eq_true,
    List.length_eq_zero]

/-- C9: `loadConfig` is total at its interface: an absent file yields the
empty registry (so a first launch lists no projects), unparseable content
is caught and yields the empty registry, and valid JSON is returned as
parsed; no case throws. -/
theorem C9_load_total :
    (∀ b : Bool, loadConfigVal ⟨b, none⟩ = encodeConfig ⟨[]⟩)
    ∧ (∀ b : Bool, getProjectsSt ⟨b, none⟩ = some [])
    ∧ (∀ (b : Bool) (s : String), jsonParse s = none →
        loadConfigVal ⟨b, some s⟩ = encodeConfig ⟨[]⟩)
    ∧ (∀ (b : Bool) (s : String) (v : JVal), jsonParse s = some v →
        loadConfigVal ⟨b, some s⟩ = v) := by
  refine ⟨fun b => rfl, fun b => rfl, ?_, ?_⟩
  · intro b s h
    simp [loadConfigVal, h]
  · intro b s v h
    simp [loadConfigVal, h]

/-- C9, witness: the three interface cases at concrete inputs. -/
theorem C9_witness :
    loadConfigVal ⟨true, none⟩ = encodeConfig ⟨[]⟩
    ∧ loadConfigVal ⟨true, some "\x7b"⟩ = encodeConfig ⟨[]⟩
    ∧ loadConfigVal ⟨true, some "null"⟩ = JVal.jnull :=
  ⟨C9_load_total.1 true,
   C9_load_total.2.2.1 true "\x7b" rfl,
   C9_load_total.2.2.2 true "null" JVal.jnull rfl⟩

/-- C10: `removeProject` only drops the targeted entries: the remaining list
is a sublist of the original (each survivor unchanged, original relative
order kept), and an entry survives exactly when its id differs from the
argument. -/
theorem C10_remove_frame (idv : String) (ps : List Project) :
    List.Sublist (removeProjectPure idv ps) ps
    ∧ ∀ p : Project, p ∈ removeProjectPure idv ps ↔ (p ∈ ps ∧ p.id ≠ idv) := by
  constructor
  · exact List.filter_sublist ps
  · intro p
    simp [removeProjectPure, List.mem_filter]

end Anima
